import Mathlib

/-!
Verification of the example-retrieval subsystem of a TMF921 dataset generator.

The development is a shallow embedding of the retrieval code:

* `src/rag/rag_retriever.py` : `RAGRetriever.retrieve_top_k`, `retrieve_mmr`,
  `retrieve_hybrid`, `_cosine_similarity`;
* `src/rag/rag_translator.py` : `RAGTranslator.retrieve_examples`;
* `src/rag/build_vector_db.py` : `build_vector_database`.

Modelling conventions:

* Embedding vectors are `List ℚ` (exact rationals in place of floats).
* The external vector store (ChromaDB) is modelled as exact nearest-neighbour
  search under its default metric, squared Euclidean distance, with ties broken
  by insertion order (a stable sort), per the determinism/stability requirement
  of the specification for the Vector Index.
* The embedding provider is an arbitrary deterministic function
  `enc : String → List ℚ`, passed as a parameter.
* Cosine similarity is real-valued (it divides by `Real.sqrt` of the squared
  norms), exactly as `_cosine_similarity` computes `np.dot(a,b)/(|a|*|b|)`.
  Consequently the MMR selection functions are noncomputable; all other
  operations are executable.
* Python exceptions (`ZeroDivisionError`, `ValueError`) are modelled with
  `Except`; `json.loads (json.dumps x) = x`, so the structured payload is
  carried as an opaque string.
-/

namespace TMF

/-- Embedding vectors: fixed-length numeric vectors, modelled over ℚ. -/
abbrev Vec := List ℚ

/-- Dot product of two vectors (`np.dot` on equal-length vectors). -/
def dotProduct : Vec → Vec → ℚ
  | a :: as, b :: bs => a * b + dotProduct as bs
  | _, _ => 0

/-- Squared Euclidean distance, the distance ChromaDB reports under its
default metric (the repository never configures a different space). -/
def l2sq : Vec → Vec → ℚ
  | a :: as, b :: bs => (a - b) * (a - b) + l2sq as bs
  | _, _ => 0

/-- One stored corpus entry of the vector store: id, document text
(the user intent), the serialized TMF921 payload kept in the metadata, and the
stored embedding. -/
structure Entry where
  eid : String
  document : String
  tmf921 : String
  embedding : Vec
deriving DecidableEq, Inhabited

/-- A collection is its entries in insertion order. -/
abbrev Collection := List Entry

/-- Ordering used to rank distance-annotated entries: ascending distance.
The vector store sorts stably, so ties keep insertion order; the model uses
`List.insertionSort`, a stable sort (stable sorting under a total preorder is
extensionally unique). -/
def distRel (a b : Entry × ℚ) : Prop :=
  a.2 ≤ b.2

instance : DecidableRel distRel := fun a b => inferInstanceAs (Decidable (a.2 ≤ b.2))

instance : IsTotal (Entry × ℚ) distRel := ⟨fun a b => le_total a.2 b.2⟩

instance : IsTrans (Entry × ℚ) distRel := ⟨fun _ _ _ h1 h2 => le_trans h1 h2⟩

/-- Nearest-neighbour query of the vector store: up to `n` entries in
ascending distance to the query embedding, ties broken by insertion order
(stable sort), each annotated with its distance. -/
def collection_query (coll : Collection) (qe : Vec) (n : Nat) : List (Entry × ℚ) :=
  ((coll.map (fun e => (e, l2sq qe e.embedding))).insertionSort distRel).take n

/-- One retrieved example as `retrieve_top_k` formats it: the dict
with keys user_intent, tmf921_intent, distance, id; `retrieve_hybrid` later
adds the extra key combined_score, absent (`none`) everywhere else. -/
structure RetrievedExample where
  user_intent : String
  tmf921_intent : String
  distance : ℚ
  id : String
  combined_score : Option ℚ
deriving DecidableEq, Inhabited

/-- `RAGRetriever.retrieve_top_k`: embed the query, query the collection with
`n_results = k`, and format each result. -/
def retrieve_top_k (enc : String → Vec) (coll : Collection) (query : String)
    (k : Nat) : List RetrievedExample :=
  let query_embedding := enc query
  (collection_query coll query_embedding k).map (fun r =>
    { user_intent := r.1.document
      tmf921_intent := r.1.tmf921
      distance := r.2
      id := r.1.eid
      combined_score := none })

/-- `RAGRetriever._cosine_similarity`: `np.dot(a, b) / (norm a * norm b)`. -/
noncomputable def cosine_similarity (a b : Vec) : ℝ :=
  (dotProduct a b : ℝ) / (Real.sqrt (dotProduct a a) * Real.sqrt (dotProduct b b))

/-- Python `max` over a nonempty list of reals (the empty case is never used
by the code: the diversity branch guards on nonemptiness of the selection). -/
noncomputable def pymax : List ℝ → ℝ
  | [] => 0
  | x :: xs => xs.foldl max x

/-- The MMR score of candidate `i` given the already selected indices:
relevance is cosine similarity to the query, diversity is one minus the
maximal similarity to a selected candidate (1.0 when nothing is selected),
and the score is `lambda * relevance + (1 - lambda) * diversity`. -/
noncomputable def mmrScore (lam : ℚ) (query_emb : Vec) (candidate_embs : List Vec)
    (selected_indices : List Nat) (i : Nat) : ℝ :=
  let relevance := cosine_similarity query_emb (candidate_embs.getD i [])
  let diversity : ℝ :=
    if selected_indices.isEmpty then 1
    else 1 - pymax (selected_indices.map (fun j =>
      cosine_similarity (candidate_embs.getD i []) (candidate_embs.getD j [])))
  (lam : ℝ) * relevance + (1 - (lam : ℝ)) * diversity

/-- One step of the inner `for i, candidate in enumerate(candidates)` scan:
skip selected indices, otherwise keep the running best, replacing it only on a
strictly greater score (`if score > best_score`); `none` plays the role of the
initial `best_idx = -1` / `best_score = -inf`. -/
noncomputable def mmrBestStep (sc : Nat → ℝ) (selected_indices : List Nat)
    (best : Option Nat) (i : Nat) : Option Nat :=
  if i ∈ selected_indices then best
  else
    match best with
    | none => some i
    | some b => if sc b < sc i then some i else some b

/-- The full scan over the candidate pool `0, …, n-1`. -/
noncomputable def mmrBest (sc : Nat → ℝ) (selected_indices : List Nat) (n : Nat) :
    Option Nat :=
  (List.range n).foldl (mmrBestStep sc selected_indices) none

/-- The `while len(selected) < k` loop of `retrieve_mmr`, with explicit fuel.
When the scan returns no index (`best_idx = -1`) the Python loop makes no
progress; the model likewise recurses without appending. Fuel `k` is proved
sufficient below (the loop performs exactly `k` selection steps). -/
noncomputable def mmrLoop (lam : ℚ) (query_emb : Vec) (candidate_embs : List Vec)
    (k : Nat) : Nat → List Nat → List Nat
  | 0, sel => sel
  | fuel + 1, sel =>
    if sel.length < k then
      match mmrBest (mmrScore lam query_emb candidate_embs sel) sel
          candidate_embs.length with
      | some b => mmrLoop lam query_emb candidate_embs k fuel (sel ++ [b])
      | none => mmrLoop lam query_emb candidate_embs k fuel sel
    else sel

/-- The indices selected by the MMR loop: the pool is the `fetch_k` nearest
candidates, the query and every candidate text are re-embedded, and the greedy
loop runs from an empty selection. -/
noncomputable def mmrIndices (enc : String → Vec) (coll : Collection)
    (query : String) (k fetch_k : Nat) (lam : ℚ) : List Nat :=
  let candidates := retrieve_top_k enc coll query fetch_k
  let query_emb := enc query
  let candidate_embs := candidates.map (fun c => enc c.user_intent)
  mmrLoop lam query_emb candidate_embs k k []

/-- `RAGRetriever.retrieve_mmr`: fetch `fetch_k` candidates; if the pool has at
most `k` elements return it unchanged, otherwise run the greedy selection and
return the selected candidates in selection order. -/
noncomputable def retrieve_mmr (enc : String → Vec) (coll : Collection)
    (query : String) (k fetch_k : Nat) (lam : ℚ) : List RetrievedExample :=
  let candidates := retrieve_top_k enc coll query fetch_k
  if candidates.length ≤ k then candidates
  else (mmrIndices enc coll query k fetch_k lam).map (fun i => candidates.getD i default)

/-- Python token set `set(s.lower().split())`: case-insensitive whitespace
splitting, empty pieces dropped, duplicates removed. -/
def tokensOf (s : String) : List String :=
  ((s.toLower.split Char.isWhitespace).filter (fun t => t ≠ "")).dedup

/-- Python exceptions raised by the modelled code paths. -/
inductive PyError where
  | zeroDivisionError
  | valueError (msg : String)
deriving DecidableEq

instance {ε α : Type} [DecidableEq ε] [DecidableEq α] : DecidableEq (Except ε α) := fun a b =>
  match a, b with
  | Except.ok x, Except.ok y => decidable_of_iff (x = y) (by simp)
  | Except.error e, Except.error f => decidable_of_iff (e = f) (by simp)
  | Except.ok _, Except.error _ => isFalse (fun h => Except.noConfusion h)
  | Except.error _, Except.ok _ => isFalse (fun h => Except.noConfusion h)

/-- Ordering realizing `sort(key=combined_score, reverse=True)`: a stable
sort that puts larger combined scores first. -/
def hybridRel (a b : RetrievedExample) : Prop :=
  b.combined_score.getD 0 ≤ a.combined_score.getD 0

instance : DecidableRel hybridRel :=
  fun a b => inferInstanceAs (Decidable (b.combined_score.getD 0 ≤ a.combined_score.getD 0))

instance : IsTotal RetrievedExample hybridRel := ⟨fun a b => le_total _ _⟩

instance : IsTrans RetrievedExample hybridRel := ⟨fun _ _ _ h1 h2 => le_trans h2 h1⟩

/-- `RAGRetriever.retrieve_hybrid`: fetch the `k*2` nearest candidates, score
each as `(1-w) * 1/(1+distance) + w * |q ∩ d| / |q|` over lowercase whitespace
token sets, sort by combined score descending (stable), return the first `k`.
The division by `len(query_keywords)` raises `ZeroDivisionError` when the
query has no tokens and the loop body runs at least once. -/
def retrieve_hybrid (enc : String → Vec) (coll : Collection) (query : String)
    (k : Nat) (keyword_weight : ℚ) : Except PyError (List RetrievedExample) :=
  let semantic_results := retrieve_top_k enc coll query (k * 2)
  let query_keywords := tokensOf query
  if semantic_results.isEmpty then
    Except.ok []
  else if query_keywords.length = 0 then
    Except.error PyError.zeroDivisionError
  else
    let scored := semantic_results.map (fun result =>
      let doc_keywords := tokensOf result.user_intent
      let keyword_overlap : ℚ :=
        ((query_keywords.filter (fun t => doc_keywords.contains t)).length : ℚ) /
          (query_keywords.length : ℚ)
      let semantic_score : ℚ := 1 / (1 + result.distance)
      { result with combined_score := some (
          (1 - keyword_weight) * semantic_score + keyword_weight * keyword_overlap) })
    Except.ok ((scored.insertionSort hybridRel).take k)

/-- The scoring pass of `retrieve_hybrid`, written out as a standalone map so
theorems can name it; definitionally equal to the loop body above. -/
def hybridScored (query : String) (keyword_weight : ℚ)
    (results : List RetrievedExample) : List RetrievedExample :=
  results.map (fun result =>
    { result with combined_score := some (
        (1 - keyword_weight) * (1 / (1 + result.distance)) +
        keyword_weight *
          ((((tokensOf query).filter
              (fun t => (tokensOf result.user_intent).contains t)).length : ℚ) /
            ((tokensOf query).length : ℚ))) })

/-- `RAGTranslator.retrieve_examples`: dispatch on the strategy name with the
defaults the translator leaves in place (`fetch_k = 20`, `lambda_mult = 0.5`,
`keyword_weight = 0.3`); an unknown name raises `ValueError`. -/
noncomputable def retrieve_examples (enc : String → Vec) (coll : Collection)
    (retrieval_strategy : String) (k : Nat) (user_intent : String) :
    Except PyError (List RetrievedExample) :=
  if retrieval_strategy = "topk" then
    Except.ok (retrieve_top_k enc coll user_intent k)
  else if retrieval_strategy = "mmr" then
    Except.ok (retrieve_mmr enc coll user_intent k 20 (1/2))
  else if retrieval_strategy = "hybrid" then
    retrieve_hybrid enc coll user_intent k (3/10)
  else
    Except.error (PyError.valueError ("Unknown retrieval strategy: " ++ retrieval_strategy))

/-- One record of the training file: a user intent and its TMF921 payload. -/
structure TrainItem where
  user_intent : String
  tmf921_intent : String
deriving DecidableEq, Inhabited

/-- The persistent client state: collections by name, in creation order. -/
abbrev ClientState := List (String × Collection)

/-- `client.delete_collection` wrapped in `try/except: pass`: remove the
collection if present, do nothing otherwise. -/
def delete_collection (st : ClientState) (name : String) : ClientState :=
  st.filter (fun c => c.1 ≠ name)

/-- `client.create_collection`: append a fresh empty collection. -/
def create_collection (st : ClientState) (name : String) : ClientState :=
  st ++ [(name, [])]

/-- `collection.add`: ChromaDB validation rejects an empty id list with a
`ValueError`; otherwise the entries are appended to the named collection. -/
def collection_add (st : ClientState) (name : String) (entries : List Entry) :
    Except PyError ClientState :=
  if entries.isEmpty then
    Except.error (PyError.valueError "Expected IDs to be a non-empty list")
  else
    Except.ok (st.map (fun c => if c.1 = name then (c.1, c.2 ++ entries) else c))

/-- `build_vector_database`: embed every user intent, delete any existing
collection, create a fresh one, then add all documents. The state after the
call is returned alongside the outcome; on a failing `add` the deletion and
the creation of the empty collection have already been committed. -/
def build_vector_database (enc : String → Vec) (st : ClientState)
    (train_data : List TrainItem) : ClientState × Except PyError Unit :=
  let user_intents := train_data.map (fun item => item.user_intent)
  let embeddings := user_intents.map enc
  let st1 := delete_collection st "tmf921_intents"
  let st2 := create_collection st1 "tmf921_intents"
  let entries := (List.range train_data.length).map (fun i =>
    { eid := "intent_" ++ toString i
      document := user_intents.getD i ""
      tmf921 := (train_data.getD i default).tmf921_intent
      embedding := embeddings.getD i [] : Entry })
  match collection_add st2 "tmf921_intents" entries with
  | Except.ok st3 => (st3, Except.ok ())
  | Except.error e => (st2, Except.error e)

/-! Concrete fixtures used by witnesses and counterexamples. -/

/-- A two-entry corpus with orthogonal unit embeddings. -/
def enc2 : String → Vec := fun s =>
  if s = "alpha beta" then [1, 0] else if s = "alpha gamma" then [0, 1] else [1, 1]

/-- The two-entry collection matching `enc2` (stored embeddings consistent
with the encoder). -/
def coll2 : Collection :=
  [ { eid := "intent_0", document := "alpha beta", tmf921 := "tA", embedding := [1, 0] },
    { eid := "intent_1", document := "alpha gamma", tmf921 := "tB", embedding := [0, 1] } ]

/-- Encoder for the MMR-degeneracy counterexample: the query maps to `[1,0]`;
document dA maps to a unit vector of cosine similarity 3/5 to the query but
squared Euclidean distance 4/5; document dB maps to `[5,0]`, cosine
similarity 1 but distance 16. Nearest-neighbour order and descending-cosine
order disagree. -/
def enc5 : String → Vec := fun s =>
  if s = "dA" then [3/5, 4/5] else if s = "dB" then [5, 0] else [1, 0]

/-- Collection for the MMR-degeneracy counterexample. -/
def coll5 : Collection :=
  [ { eid := "intent_0", document := "dA", tmf921 := "tA", embedding := [3/5, 4/5] },
    { eid := "intent_1", document := "dB", tmf921 := "tB", embedding := [5, 0] } ]

/-- A collection of 21 identical-embedding entries, exceeding the fixed
`fetch_k = 20` used by the translator's diversity path. -/
def coll21 : Collection := (List.range 21).map (fun i =>
  { eid := toString i, document := "d", tmf921 := "t", embedding := [0] })

/-- Constant encoder for the 21-entry collection. -/
def enc21 : String → Vec := fun _ => [0]

/-- An initial client state already holding a one-entry index, used to show
that a failing rebuild destroys it. -/
def stPrev : ClientState :=
  [("tmf921_intents", [{ eid := "old_0", document := "old", tmf921 := "tOld", embedding := [1] }])]

/-! Helper lemmas about the nearest-neighbour layer. -/

theorem length_collection_query (coll : Collection) (qe : Vec) (n : Nat) :
    (collection_query coll qe n).length = min n coll.length := by
  simp [collection_query, List.length_take, List.length_insertionSort]

theorem length_retrieve_top_k (enc : String → Vec) (coll : Collection)
    (query : String) (k : Nat) :
    (retrieve_top_k enc coll query k).length = min k coll.length := by
  simp [retrieve_top_k, length_collection_query]

theorem retrieve_top_k_sorted (enc : String → Vec) (coll : Collection)
    (query : String) (k : Nat) :
    (retrieve_top_k enc coll query k).Pairwise (fun a b => a.distance ≤ b.distance) := by
  have h := List.sorted_insertionSort distRel
    (coll.map (fun e => (e, l2sq (enc query) e.embedding)))
  have h2 : (collection_query coll (enc query) k).Pairwise distRel :=
    List.Pairwise.sublist (List.take_sublist _ _) h
  rw [retrieve_top_k]
  rw [List.pairwise_map]
  exact h2.imp (fun hab => hab)

theorem retrieve_top_k_take (enc : String → Vec) (coll : Collection) (query : String)
    {k fk : Nat} (h : k ≤ fk) :
    (retrieve_top_k enc coll query fk).take k = retrieve_top_k enc coll query k := by
  simp only [retrieve_top_k, collection_query, ← List.map_take, List.take_take,
    Nat.min_eq_left h]

/-! Helper lemmas about the inner MMR scan: it returns the first candidate of
maximal score among the unselected ones, or `none` when every candidate index
is already selected. -/

theorem mmrBest_succ (sc : Nat → ℝ) (sel : List Nat) (n : Nat) :
    mmrBest sc sel (n + 1) = mmrBestStep sc sel (mmrBest sc sel n) n := by
  rw [mmrBest, mmrBest, List.range_succ, List.foldl_append]
  rfl

theorem mmrBestStep_none (sc : Nat → ℝ) (sel : List Nat) (i : Nat) :
    mmrBestStep sc sel none i = if i ∈ sel then none else some i := rfl

theorem mmrBestStep_some (sc : Nat → ℝ) (sel : List Nat) (b i : Nat) :
    mmrBestStep sc sel (some b) i =
      if i ∈ sel then some b else if sc b < sc i then some i else some b := rfl

theorem mmrBest_spec (sc : Nat → ℝ) (sel : List Nat) :
    ∀ n, (mmrBest sc sel n = none → ∀ i, i < n → i ∈ sel) ∧
      (∀ b, mmrBest sc sel n = some b →
        b < n ∧ b ∉ sel ∧
          (∀ j, j < n → j ∉ sel → sc j ≤ sc b) ∧
          (∀ j, j < n → j ∉ sel → sc j = sc b → b ≤ j)) := by
  intro n
  induction n with
  | zero =>
    constructor
    · intro _ i hi; omega
    · intro b hb; simp [mmrBest] at hb
  | succ n ih =>
    by_cases hmem : n ∈ sel
    · rw [mmrBest_succ]
      simp only [mmrBestStep, if_pos hmem]
      constructor
      · intro hnone i hi
        rcases Nat.lt_succ_iff_lt_or_eq.mp hi with h | h
        · exact ih.1 hnone i h
        · exact h ▸ hmem
      · intro b hb
        obtain ⟨h1, h2, h3, h4⟩ := ih.2 b hb
        refine ⟨Nat.lt_succ_of_lt h1, h2, ?_, ?_⟩
        · intro j hj hjs
          rcases Nat.lt_succ_iff_lt_or_eq.mp hj with h | h
          · exact h3 j h hjs
          · exact absurd (h ▸ hmem) hjs
        · intro j hj hjs heq
          rcases Nat.lt_succ_iff_lt_or_eq.mp hj with h | h
          · exact h4 j h hjs heq
          · exact absurd (h ▸ hmem) hjs
    · cases hprev : mmrBest sc sel n with
      | none =>
        rw [mmrBest_succ, hprev, mmrBestStep_none, if_neg hmem]
        constructor
        · intro hnone; exact absurd hnone (by simp)
        · intro b hb
          have hbn : b = n := by simpa using hb.symm
          subst hbn
          refine ⟨Nat.lt_succ_self b, hmem, ?_, ?_⟩
          · intro j hj hjs
            rcases Nat.lt_succ_iff_lt_or_eq.mp hj with h | h
            · exact absurd (ih.1 hprev j h) hjs
            · exact h ▸ le_refl (sc j)
          · intro j hj hjs _
            rcases Nat.lt_succ_iff_lt_or_eq.mp hj with h | h
            · exact absurd (ih.1 hprev j h) hjs
            · omega
      | some b =>
        rw [mmrBest_succ, hprev, mmrBestStep_some, if_neg hmem]
        obtain ⟨h1, h2, h3, h4⟩ := ih.2 b hprev
        by_cases hlt : sc b < sc n
        · rw [if_pos hlt]
          constructor
          · intro hnone; exact absurd hnone (by simp)
          · intro c hc
            have hcn : c = n := by simpa using hc.symm
            subst hcn
            refine ⟨Nat.lt_succ_self c, hmem, ?_, ?_⟩
            · intro j hj hjs
              rcases Nat.lt_succ_iff_lt_or_eq.mp hj with h | h
              · exact le_of_lt (lt_of_le_of_lt (h3 j h hjs) hlt)
              · exact h ▸ le_refl (sc j)
            · intro j hj hjs heq
              rcases Nat.lt_succ_iff_lt_or_eq.mp hj with h | h
              · exact absurd heq (ne_of_lt (lt_of_le_of_lt (h3 j h hjs) hlt))
              · omega
        · rw [if_neg hlt]
          have hle : sc n ≤ sc b := le_of_not_lt hlt
          constructor
          · intro hnone; exact absurd hnone (by simp)
          · intro c hc
            have hcb : c = b := by simpa using hc.symm
            subst hcb
            refine ⟨Nat.lt_succ_of_lt h1, h2, ?_, ?_⟩
            · intro j hj hjs
              rcases Nat.lt_succ_iff_lt_or_eq.mp hj with h | h
              · exact h3 j h hjs
              · exact h ▸ hle
            · intro j hj hjs heq
              rcases Nat.lt_succ_iff_lt_or_eq.mp hj with h | h
              · exact h4 j h hjs heq
              · exact h ▸ le_of_lt h1


theorem mmrBest_isSome (sc : Nat → ℝ) (sel : List Nat) (n : Nat)
    (h : ∃ i, i < n ∧ i ∉ sel) : ∃ b, mmrBest sc sel n = some b := by
  cases hb : mmrBest sc sel n with
  | none =>
    obtain ⟨i, hi, hs⟩ := h
    exact absurd ((mmrBest_spec sc sel n).1 hb i hi) hs
  | some b => exact ⟨b, rfl⟩

theorem mmrBest_eq (sc : Nat → ℝ) (sel : List Nat) (n : Nat) (i : Nat)
    (hi : i < n) (his : i ∉ sel)
    (hmax : ∀ j, j < n → j ∉ sel → sc j ≤ sc i)
    (htie : ∀ j, j < n → j ∉ sel → sc j = sc i → i ≤ j) :
    mmrBest sc sel n = some i := by
  obtain ⟨b, hb⟩ := mmrBest_isSome sc sel n ⟨i, hi, his⟩
  obtain ⟨hbn, hbs, hmaxb, htieb⟩ := (mmrBest_spec sc sel n).2 b hb
  have heq : sc i = sc b := le_antisymm (hmaxb i hi his) (hmax b hbn hbs)
  have hib : b ≤ i := htieb i hi his heq
  have hbi : i ≤ b := htie b hbn hbs heq.symm
  rw [hb]
  exact congrArg some (Nat.le_antisymm hib hbi)

/-! Helper lemmas about the greedy selection loop. -/

theorem mmrLoop_exit (lam : ℚ) (qe : Vec) (embs : List Vec) (k : Nat)
    (sel : List Nat) (h : ¬ sel.length < k) :
    ∀ fuel, mmrLoop lam qe embs k fuel sel = sel := by
  intro fuel
  cases fuel with
  | zero => rfl
  | succ fuel => simp only [mmrLoop, if_neg h]

theorem getD_of_take_concat {L sel : List Nat} {b : Nat}
    (hlen : sel.length < L.length)
    (htake : L.take (sel.length + 1) = sel ++ [b]) :
    L.getD sel.length 0 = b := by
  rw [List.getD_eq_getElem?_getD, List.getElem?_eq_getElem hlen, Option.getD_some]
  rw [List.getElem_take' L hlen (Nat.lt_succ_self _)]
  simp only [htake]
  exact List.getElem_concat_length _ _ _ rfl _

theorem mmrLoop_spec (lam : ℚ) (qe : Vec) (embs : List Vec) (k : Nat)
    (hk : k < embs.length) :
    ∀ (fuel : Nat) (sel : List Nat), sel.Nodup → (∀ i ∈ sel, i < embs.length) →
      sel.length + fuel = k →
      (mmrLoop lam qe embs k fuel sel).length = k ∧
      (mmrLoop lam qe embs k fuel sel).Nodup ∧
      (∀ i ∈ mmrLoop lam qe embs k fuel sel, i < embs.length) ∧
      (mmrLoop lam qe embs k fuel sel).take sel.length = sel ∧
      (∀ t, sel.length ≤ t → t < k →
        mmrBest (mmrScore lam qe embs ((mmrLoop lam qe embs k fuel sel).take t))
          ((mmrLoop lam qe embs k fuel sel).take t) embs.length =
          some ((mmrLoop lam qe embs k fuel sel).getD t 0)) ∧
      (∀ extra, mmrLoop lam qe embs k (fuel + extra) sel = mmrLoop lam qe embs k fuel sel) := by
  intro fuel
  induction fuel with
  | zero =>
    intro sel hnd hbnd hlen
    have hsel : sel.length = k := by omega
    have hexit : ¬ sel.length < k := by omega
    refine ⟨hsel, hnd, hbnd, List.take_length sel, ?_, ?_⟩
    · intro t ht1 ht2; omega
    · intro extra
      rw [Nat.zero_add]
      exact mmrLoop_exit lam qe embs k sel hexit extra
  | succ fuel ih =>
    intro sel hnd hbnd hlen
    have hltk : sel.length < k := by omega
    have helig : ∃ i, i < embs.length ∧ i ∉ sel := by
      by_contra hcon
      push_neg at hcon
      have hsub : Finset.range embs.length ⊆ sel.toFinset := by
        intro x hx
        rw [List.mem_toFinset]
        exact hcon x (Finset.mem_range.mp hx)
      have hc1 := Finset.card_le_card hsub
      rw [Finset.card_range] at hc1
      have hc2 := List.toFinset_card_le sel
      omega
    obtain ⟨b, hbest⟩ := mmrBest_isSome (mmrScore lam qe embs sel) sel embs.length helig
    obtain ⟨hbn, hbs, _, _⟩ := (mmrBest_spec _ sel embs.length).2 b hbest
    have hstep : mmrLoop lam qe embs k (fuel + 1) sel =
        mmrLoop lam qe embs k fuel (sel ++ [b]) := by
      simp only [mmrLoop, if_pos hltk, hbest]
    have hnd2 : (sel ++ [b]).Nodup := by
      rw [List.nodup_append]
      exact ⟨hnd, List.nodup_singleton b, by simpa using hbs⟩
    have hbnd2 : ∀ i ∈ sel ++ [b], i < embs.length := by
      intro i hi
      rcases List.mem_append.mp hi with h | h
      · exact hbnd i h
      · simp at h; omega
    have hlen2 : (sel ++ [b]).length + fuel = k := by
      simp only [List.length_append, List.length_singleton]; omega
    obtain ⟨ihl, ihnd, ihb, ihtake, ihtrace, ihextra⟩ := ih (sel ++ [b]) hnd2 hbnd2 hlen2
    have htake1 : (mmrLoop lam qe embs k fuel (sel ++ [b])).take (sel.length + 1) =
        sel ++ [b] := by
      have : (sel ++ [b]).length = sel.length + 1 := by simp
      rw [← this]
      exact ihtake
    have htake0 : (mmrLoop lam qe embs k fuel (sel ++ [b])).take sel.length = sel := by
      have h1 : (mmrLoop lam qe embs k fuel (sel ++ [b])).take sel.length =
          ((mmrLoop lam qe embs k fuel (sel ++ [b])).take (sel.length + 1)).take sel.length := by
        rw [List.take_take, Nat.min_eq_left (Nat.le_succ _)]
      rw [h1, htake1, List.take_left' rfl]
    refine ⟨hstep ▸ ihl, hstep ▸ ihnd, hstep ▸ ihb, ?_, ?_, ?_⟩
    · rw [hstep]; exact htake0
    · intro t ht1 ht2
      rw [hstep]
      rcases eq_or_lt_of_le ht1 with heq | hlt2
      · have hget : (mmrLoop lam qe embs k fuel (sel ++ [b])).getD sel.length 0 = b :=
          getD_of_take_concat (by omega) htake1
        rw [← heq, htake0, hget]
        exact hbest
      · exact ihtrace t (by simp only [List.length_append, List.length_singleton]; omega) ht2
    · intro extra
      have harr : fuel + 1 + extra = (fuel + extra) + 1 := by omega
      rw [harr, hstep]
      have hstep2 : mmrLoop lam qe embs k ((fuel + extra) + 1) sel =
          mmrLoop lam qe embs k (fuel + extra) (sel ++ [b]) := by
        simp only [mmrLoop, if_pos hltk, hbest]
      rw [hstep2, ihextra extra]

theorem retrieve_mmr_of_le (enc : String → Vec) (coll : Collection) (query : String)
    (k fetch_k : Nat) (lam : ℚ)
    (h : (retrieve_top_k enc coll query fetch_k).length ≤ k) :
    retrieve_mmr enc coll query k fetch_k lam = retrieve_top_k enc coll query fetch_k := by
  simp only [retrieve_mmr, if_pos h]

theorem retrieve_mmr_of_gt (enc : String → Vec) (coll : Collection) (query : String)
    (k fetch_k : Nat) (lam : ℚ)
    (h : k < (retrieve_top_k enc coll query fetch_k).length) :
    retrieve_mmr enc coll query k fetch_k lam =
      (mmrIndices enc coll query k fetch_k lam).map
        (fun i => (retrieve_top_k enc coll query fetch_k).getD i default) := by
  simp only [retrieve_mmr, if_neg (Nat.not_le_of_lt h)]

theorem mmrIndices_def (enc : String → Vec) (coll : Collection) (query : String)
    (k fetch_k : Nat) (lam : ℚ) :
    mmrIndices enc coll query k fetch_k lam =
      mmrLoop lam (enc query)
        ((retrieve_top_k enc coll query fetch_k).map (fun c => enc c.user_intent)) k k [] :=
  rfl

theorem mmrIndices_spec (enc : String → Vec) (coll : Collection) (query : String)
    (k fetch_k : Nat) (lam : ℚ)
    (hk : k < (retrieve_top_k enc coll query fetch_k).length) :
    (mmrIndices enc coll query k fetch_k lam).length = k ∧
    (mmrIndices enc coll query k fetch_k lam).Nodup ∧
    (∀ i ∈ mmrIndices enc coll query k fetch_k lam,
      i < (retrieve_top_k enc coll query fetch_k).length) ∧
    (∀ t, t < k →
      mmrBest (mmrScore lam (enc query)
          ((retrieve_top_k enc coll query fetch_k).map (fun c => enc c.user_intent))
          ((mmrIndices enc coll query k fetch_k lam).take t))
        ((mmrIndices enc coll query k fetch_k lam).take t)
        ((retrieve_top_k enc coll query fetch_k).map (fun c => enc c.user_intent)).length =
      some ((mmrIndices enc coll query k fetch_k lam).getD t 0)) := by
  have hlen : ((retrieve_top_k enc coll query fetch_k).map
      (fun c => enc c.user_intent)).length = (retrieve_top_k enc coll query fetch_k).length :=
    List.length_map _ _
  have hk2 : k < ((retrieve_top_k enc coll query fetch_k).map
      (fun c => enc c.user_intent)).length := by rw [hlen]; exact hk
  obtain ⟨h1, h2, h3, _, h5, _⟩ := mmrLoop_spec lam (enc query)
    ((retrieve_top_k enc coll query fetch_k).map (fun c => enc c.user_intent)) k hk2
    k [] List.nodup_nil (by simp) (by simp)
  rw [mmrIndices_def]
  refine ⟨h1, h2, ?_, ?_⟩
  · intro i hi
    rw [← hlen]
    exact h3 i hi
  · intro t ht
    exact h5 t (by simp) ht

theorem range_map_getD {α : Type} (l : List α) (d : α) :
    ∀ k, k ≤ l.length → (List.range k).map (fun i => l.getD i d) = l.take k := by
  intro k
  induction k with
  | zero => intro _; rfl
  | succ k ih =>
    intro hk
    rw [List.range_succ, List.map_append, ih (by omega), List.take_succ]
    congr 1
    rw [List.getElem?_eq_getElem (show k < l.length by omega)]
    simp only [List.map_cons, List.map_nil, Option.toList_some]
    congr 1
    rw [List.getD_eq_getElem?_getD, List.getElem?_eq_getElem (show k < l.length by omega),
      Option.getD_some]

theorem mmrScore_one (qe : Vec) (embs : List Vec) (sel : List Nat) (j : Nat) :
    mmrScore 1 qe embs sel j = cosine_similarity qe (embs.getD j []) := by
  simp [mmrScore]

theorem retrieve_hybrid_eq (enc : String → Vec) (coll : Collection) (query : String)
    (k : Nat) (kw : ℚ) (hq : tokensOf query ≠ []) :
    retrieve_hybrid enc coll query k kw =
      Except.ok (((hybridScored query kw
        (retrieve_top_k enc coll query (k * 2))).insertionSort hybridRel).take k) := by
  rw [retrieve_hybrid]
  by_cases hp : (retrieve_top_k enc coll query (k * 2)).isEmpty
  · rw [if_pos hp]
    have hnil : retrieve_top_k enc coll query (k * 2) = [] := List.isEmpty_iff.mp hp
    rw [hnil]
    simp [hybridScored]
  · rw [if_neg hp, if_neg (by simpa [List.length_eq_zero] using hq)]
    rfl

/-! Claim theorems. -/

/-- C3 counterexample: `retrieve_examples` called with `k = 0` on the nearest
strategy returns an empty result list instead of failing with any error, so the
retrieve operation does not raise on `k ≤ 0`. -/
theorem c3_counterexample_k_zero_ok :
    retrieve_examples enc2 coll2 "topk" 0 "alpha beta" = Except.ok [] := by
  rw [retrieve_examples, if_pos rfl]
  with_unfolding_all decide

/-- C3 (amended): the dispatcher raises `ValueError` exactly for unknown
strategy names and otherwise forwards the request without validation: `k = 0`
yields an empty exemplar list (no error), and the diversity path is always
invoked with the hard-wired default `fetch_k = 20`, never validated against
`k`. No `InvalidRequestError` exists in the code. -/
theorem c3_dispatch_validation (enc : String → Vec) (coll : Collection)
    (strategy user_intent : String) (k : Nat) :
    (strategy ≠ "topk" → strategy ≠ "mmr" → strategy ≠ "hybrid" →
      retrieve_examples enc coll strategy k user_intent =
        Except.error (PyError.valueError ("Unknown retrieval strategy: " ++ strategy))) ∧
    retrieve_examples enc coll "topk" 0 user_intent = Except.ok [] ∧
    retrieve_examples enc coll "topk" k user_intent =
      Except.ok (retrieve_top_k enc coll user_intent k) ∧
    retrieve_examples enc coll "mmr" k user_intent =
      Except.ok (retrieve_mmr enc coll user_intent k 20 (1/2)) ∧
    retrieve_examples enc coll "hybrid" k user_intent =
      retrieve_hybrid enc coll user_intent k (3/10) := by
  refine ⟨?_, ?_, ?_, ?_, ?_⟩
  · intro h1 h2 h3
    rw [retrieve_examples, if_neg h1, if_neg h2, if_neg h3]
  · rw [retrieve_examples, if_pos rfl]
    have hlen := length_retrieve_top_k enc coll user_intent 0
    simp only [Nat.zero_min] at hlen
    rw [List.length_eq_zero.mp hlen]
  · rw [retrieve_examples, if_pos rfl]
  · rw [retrieve_examples, if_neg (by decide), if_pos rfl]
  · rw [retrieve_examples, if_neg (by decide), if_neg (by decide), if_pos rfl]

/-- C3 witness: the amended dispatch behaviour at concrete inputs: the unknown
strategy name "nearest" raises `ValueError`. -/
theorem c3_dispatch_validation_witness :
    retrieve_examples enc2 coll2 "nearest" 3 "q" =
      Except.error (PyError.valueError ("Unknown retrieval strategy: " ++ "nearest")) :=
  (c3_dispatch_validation enc2 coll2 "nearest" "q" 3).1
    (by decide) (by decide) (by decide)

/-- C4: the hybrid keyword score is computed as |query tokens ∩ candidate
tokens| / |query tokens| over case-insensitive whitespace token sets, but the
division is not guarded: a query with no tokens makes `len(query_keywords)`
zero, and the first loop iteration raises `ZeroDivisionError` whenever the
candidate pool is nonempty. This evaluation exhibits the failure at the empty
query over a nonempty collection, contradicting the claim that
`keyword_score` is set to 0 instead of failing. -/
theorem c4_empty_query_zero_division :
    tokensOf "" = [] ∧
    retrieve_hybrid enc2 coll2 "" 1 (3/10) = Except.error PyError.zeroDivisionError := by
  constructor
  · with_unfolding_all decide
  · with_unfolding_all decide

/-- C7 (amended): building from an empty corpus fails with the vector-store
validation error raised by the empty `add` (there is no `IndexBuildError` in
the code), and the failure is not all-or-nothing: before the failing `add`,
any previous collection has already been deleted and a fresh empty collection
committed in its place. -/
theorem c7_build_empty_corpus (enc : String → Vec) (st : ClientState) :
    build_vector_database enc st [] =
      (delete_collection st "tmf921_intents" ++ [("tmf921_intents", [])],
        Except.error (PyError.valueError "Expected IDs to be a non-empty list")) := by
  rfl

/-- C7 counterexample: starting from a client state whose index already holds
an entry, the build on the empty corpus fails, yet the old index has been
destroyed and an empty collection committed — a partial build is committed,
contradicting the all-or-nothing claim. -/
theorem c7_counterexample_not_atomic :
    build_vector_database enc2 stPrev [] =
      ([("tmf921_intents", [])],
        Except.error (PyError.valueError "Expected IDs to be a non-empty list")) ∧
    stPrev ≠ [("tmf921_intents", [])] := by
  constructor
  · with_unfolding_all decide
  · with_unfolding_all decide

/-- C2 counterexample: through the public retrieve operation with the
diversity strategy, k = 21 on a 21-entry corpus returns only the 20 nearest
exemplars — the hard-wired `fetch_k = 20` truncates the pool — instead of
min(k, corpus_size) = 21. -/
theorem c2_counterexample_mmr_truncates :
    retrieve_examples enc21 coll21 "mmr" 21 "q" =
      Except.ok (retrieve_top_k enc21 coll21 "q" 20) ∧
    (retrieve_top_k enc21 coll21 "q" 20).length = 20 ∧
    coll21.length = 21 := by
  refine ⟨?_, ?_, ?_⟩
  · rw [retrieve_examples, if_neg (by decide), if_pos rfl]
    congr 1
    apply retrieve_mmr_of_le
    rw [length_retrieve_top_k]
    decide
  · rw [length_retrieve_top_k]
    decide
  · decide

/-- C2 (amended): the nearest strategy always returns min(k, corpus_size)
exemplars, the hybrid strategy does so whenever the query has at least one
token, and the diversity strategy returns min(k, min(fetch_k, corpus_size))
exemplars — equal to min(k, corpus_size) exactly when fetch_k ≥ k (with the
translator's hard-wired default, only for k ≤ 20). -/
theorem c2_length_min (enc : String → Vec) (coll : Collection) (query : String)
    (k fetch_k : Nat) (lam kw : ℚ) (hk1 : 1 ≤ k) :
    (retrieve_top_k enc coll query k).length = min k coll.length ∧
    (retrieve_mmr enc coll query k fetch_k lam).length =
      min k (min fetch_k coll.length) ∧
    (k ≤ fetch_k →
      (retrieve_mmr enc coll query k fetch_k lam).length = min k coll.length) ∧
    (tokensOf query ≠ [] → ∃ l, retrieve_hybrid enc coll query k kw = Except.ok l ∧
      l.length = min k coll.length) := by
  have htop := length_retrieve_top_k enc coll query k
  have hmmr : (retrieve_mmr enc coll query k fetch_k lam).length =
      min k (min fetch_k coll.length) := by
    by_cases h : (retrieve_top_k enc coll query fetch_k).length ≤ k
    · rw [retrieve_mmr_of_le enc coll query k fetch_k lam h, length_retrieve_top_k]
      rw [length_retrieve_top_k] at h
      omega
    · push_neg at h
      rw [retrieve_mmr_of_gt enc coll query k fetch_k lam h, List.length_map,
        (mmrIndices_spec enc coll query k fetch_k lam h).1]
      rw [length_retrieve_top_k] at h
      omega
  refine ⟨htop, hmmr, ?_, ?_⟩
  · intro hfk
    rw [hmmr]
    omega
  · intro hq
    refine ⟨_, retrieve_hybrid_eq enc coll query k kw hq, ?_⟩
    rw [List.length_take, List.length_insertionSort]
    simp only [hybridScored, List.length_map, length_retrieve_top_k]
    omega

/-- C2 witness: the amended length law at concrete inputs, with every
hypothesis discharged. -/
theorem c2_length_min_witness :
    (retrieve_top_k enc2 coll2 "alpha beta" 1).length = min 1 coll2.length ∧
    (retrieve_mmr enc2 coll2 "alpha beta" 1 2 (1/2)).length = min 1 coll2.length ∧
    (∃ l, retrieve_hybrid enc2 coll2 "alpha beta" 1 (1/2) = Except.ok l ∧
      l.length = min 1 coll2.length) := by
  obtain ⟨h1, _, h3, h4⟩ := c2_length_min enc2 coll2 "alpha beta" 1 2 (1/2) (1/2) (by decide)
  exact ⟨h1, h3 (by decide), h4 (by with_unfolding_all decide)⟩

/-- C6: the hybrid policy fetches the `k*2` semantically nearest candidates,
gives each candidate the combined score `(1 - keyword_weight) * (1 / (1 +
distance)) + keyword_weight * (|query tokens ∩ candidate tokens| / |query
tokens|)`, sorts descending by combined score with a stable tie-break keeping
the original semantic rank, and returns the first k: the output is the
k-prefix of a stable descending sort of the scored pool (sortedness,
permutation and pair-stability of that sort are stated explicitly). -/
theorem c6_hybrid_rank_fusion (enc : String → Vec) (coll : Collection)
    (query : String) (k : Nat) (kw : ℚ) (hq : tokensOf query ≠ []) :
    (∀ results, hybridScored query kw results = results.map (fun result =>
      { result with combined_score := some (
          (1 - kw) * (1 / (1 + result.distance)) +
          kw * ((((tokensOf query).filter
              (fun t => (tokensOf result.user_intent).contains t)).length : ℚ) /
            ((tokensOf query).length : ℚ))) })) ∧
    retrieve_hybrid enc coll query k kw =
      Except.ok (((hybridScored query kw
        (retrieve_top_k enc coll query (k * 2))).insertionSort hybridRel).take k) ∧
    ((hybridScored query kw (retrieve_top_k enc coll query (k * 2))).insertionSort
      hybridRel).Pairwise
        (fun a b => b.combined_score.getD 0 ≤ a.combined_score.getD 0) ∧
    ((hybridScored query kw (retrieve_top_k enc coll query (k * 2))).insertionSort
      hybridRel).Perm (hybridScored query kw (retrieve_top_k enc coll query (k * 2))) ∧
    (∀ a b, [a, b].Sublist
        (hybridScored query kw (retrieve_top_k enc coll query (k * 2))) →
      a.combined_score.getD 0 = b.combined_score.getD 0 →
      [a, b].Sublist ((hybridScored query kw
        (retrieve_top_k enc coll query (k * 2))).insertionSort hybridRel)) := by
  refine ⟨fun results => rfl, retrieve_hybrid_eq enc coll query k kw hq, ?_, ?_, ?_⟩
  · exact List.sorted_insertionSort hybridRel _
  · exact List.perm_insertionSort hybridRel _
  · intro a b hsub heq
    exact List.pair_sublist_insertionSort (le_of_eq heq.symm) hsub

/-- C6 witness: the hybrid ranking law at concrete inputs, with the
nonempty-token hypothesis discharged. -/
theorem c6_hybrid_rank_fusion_witness :
    retrieve_hybrid enc2 coll2 "alpha beta" 1 (3/10) =
      Except.ok (((hybridScored "alpha beta" (3/10)
        (retrieve_top_k enc2 coll2 "alpha beta" (1 * 2))).insertionSort
          hybridRel).take 1) :=
  (c6_hybrid_rank_fusion enc2 coll2 "alpha beta" 1 (3/10)
    (by with_unfolding_all decide)).2.1

/-- C10: every exemplar returned by the hybrid policy is one of its fetched
candidates with exactly one field changed — combined_score is set to the
hybrid formula — while the nearest and diversity policies return exemplars
whose combined_score field is absent (`none`); user intent, payload, distance
and id are unchanged by the re-ranking. -/
theorem c10_combined_score_frame (enc : String → Vec) (coll : Collection)
    (query : String) (k fetch_k : Nat) (lam kw : ℚ) :
    (∀ e ∈ retrieve_top_k enc coll query k, e.combined_score = none) ∧
    (∀ e ∈ retrieve_mmr enc coll query k fetch_k lam, e.combined_score = none) ∧
    (∀ l, retrieve_hybrid enc coll query k kw = Except.ok l → ∀ e ∈ l,
      ∃ c ∈ retrieve_top_k enc coll query (k * 2),
        e.user_intent = c.user_intent ∧ e.tmf921_intent = c.tmf921_intent ∧
        e.distance = c.distance ∧ e.id = c.id ∧
        e.combined_score = some ((1 - kw) * (1 / (1 + c.distance)) +
          kw * ((((tokensOf query).filter
              (fun t => (tokensOf c.user_intent).contains t)).length : ℚ) /
            ((tokensOf query).length : ℚ)))) := by
  have htop : ∀ kk : Nat, ∀ e ∈ retrieve_top_k enc coll query kk,
      e.combined_score = none := by
    intro kk e he
    simp only [retrieve_top_k] at he
    obtain ⟨r, _, rfl⟩ := List.mem_map.mp he
    rfl
  refine ⟨htop k, ?_, ?_⟩
  · intro e he
    by_cases h : (retrieve_top_k enc coll query fetch_k).length ≤ k
    · rw [retrieve_mmr_of_le enc coll query k fetch_k lam h] at he
      exact htop fetch_k e he
    · push_neg at h
      rw [retrieve_mmr_of_gt enc coll query k fetch_k lam h] at he
      obtain ⟨i, hi, rfl⟩ := List.mem_map.mp he
      have hib := (mmrIndices_spec enc coll query k fetch_k lam h).2.2.1 i hi
      have hmem : (retrieve_top_k enc coll query fetch_k).getD i default ∈
          retrieve_top_k enc coll query fetch_k := by
        rw [List.getD_eq_getElem?_getD, List.getElem?_eq_getElem hib, Option.getD_some]
        exact List.getElem_mem _
      exact htop fetch_k _ hmem
  · intro l hl e he
    rw [retrieve_hybrid] at hl
    by_cases hp : (retrieve_top_k enc coll query (k * 2)).isEmpty
    · rw [if_pos hp] at hl
      have hln : [] = l := by simpa using hl
      rw [← hln] at he
      simp at he
    · rw [if_neg hp] at hl
      by_cases hq : (tokensOf query).length = 0
      · rw [if_pos hq] at hl
        exact absurd hl (by simp)
      · rw [if_neg hq] at hl
        have hll : ((hybridScored query kw
            (retrieve_top_k enc coll query (k * 2))).insertionSort hybridRel).take k
            = l := by
          simpa [hybridScored] using hl
        rw [← hll] at he
        have hmem1 := List.take_subset _ _ he
        have hmem2 : e ∈ hybridScored query kw (retrieve_top_k enc coll query (k * 2)) :=
          (List.perm_insertionSort hybridRel _).mem_iff.mp hmem1
        simp only [hybridScored] at hmem2
        obtain ⟨c, hc, rfl⟩ := List.mem_map.mp hmem2
        exact ⟨c, hc, rfl, rfl, rfl, rfl, rfl⟩

/-- C10 witness: the frame law at concrete inputs, with the hybrid result
hypothesis discharged by evaluation. -/
theorem c10_combined_score_frame_witness :
    (∀ e ∈ retrieve_top_k enc2 coll2 "alpha beta" 1, e.combined_score = none) ∧
    (∀ e ∈ ((hybridScored "alpha beta" (3/10)
        (retrieve_top_k enc2 coll2 "alpha beta" (1 * 2))).insertionSort
          hybridRel).take 1,
      ∃ c ∈ retrieve_top_k enc2 coll2 "alpha beta" (1 * 2),
        e.user_intent = c.user_intent ∧ e.tmf921_intent = c.tmf921_intent ∧
        e.distance = c.distance ∧ e.id = c.id ∧
        e.combined_score = some ((1 - (3/10 : ℚ)) * (1 / (1 + c.distance)) +
          (3/10 : ℚ) * ((((tokensOf "alpha beta").filter
              (fun t => (tokensOf c.user_intent).contains t)).length : ℚ) /
            ((tokensOf "alpha beta").length : ℚ)))) := by
  obtain ⟨h1, _, h3⟩ :=
    c10_combined_score_frame enc2 coll2 "alpha beta" 1 2 (1/2) (3/10)
  exact ⟨h1, h3 _ (by with_unfolding_all decide)⟩

theorem retrieve_top_k_distance_mono (enc : String → Vec) (coll : Collection)
    (query : String) (fetch_k : Nat) {i j : Nat} (hij : i ≤ j)
    (hj : j < (retrieve_top_k enc coll query fetch_k).length) :
    ((retrieve_top_k enc coll query fetch_k).getD i default).distance ≤
      ((retrieve_top_k enc coll query fetch_k).getD j default).distance := by
  rcases eq_or_lt_of_le hij with rfl | hlt
  · exact le_refl _
  · have hi : i < (retrieve_top_k enc coll query fetch_k).length := lt_trans hlt hj
    have hp := retrieve_top_k_sorted enc coll query fetch_k
    rw [List.pairwise_iff_getElem] at hp
    rw [List.getD_eq_getElem?_getD, List.getElem?_eq_getElem hi, Option.getD_some,
      List.getD_eq_getElem?_getD, List.getElem?_eq_getElem hj, Option.getD_some]
    exact hp i j hi hj hlt

/-- C9: for every lambda in [0,1] and every candidate pool larger than k, the
MMR selection never selects the same pool element twice: the selected indices
form a list of exactly k pairwise-distinct valid indices of the fetched pool,
and the returned exemplars are the pool entries at those indices. -/
theorem c9_mmr_indices_distinct (enc : String → Vec) (coll : Collection)
    (query : String) (k fetch_k : Nat) (lam : ℚ)
    (h0 : 0 ≤ lam) (h1 : lam ≤ 1)
    (hk : k < (retrieve_top_k enc coll query fetch_k).length) :
    (mmrIndices enc coll query k fetch_k lam).length = k ∧
    (mmrIndices enc coll query k fetch_k lam).Nodup ∧
    (∀ i ∈ mmrIndices enc coll query k fetch_k lam,
      i < (retrieve_top_k enc coll query fetch_k).length) ∧
    retrieve_mmr enc coll query k fetch_k lam =
      (mmrIndices enc coll query k fetch_k lam).map
        (fun i => (retrieve_top_k enc coll query fetch_k).getD i default) := by
  obtain ⟨hh1, hh2, hh3, _⟩ := mmrIndices_spec enc coll query k fetch_k lam hk
  exact ⟨hh1, hh2, hh3, retrieve_mmr_of_gt enc coll query k fetch_k lam hk⟩

/-- C9 witness: the distinctness law at concrete inputs with all hypotheses
discharged by evaluation. -/
theorem c9_mmr_indices_distinct_witness :
    (mmrIndices enc2 coll2 "alpha beta" 1 2 (1/2)).length = 1 ∧
    (mmrIndices enc2 coll2 "alpha beta" 1 2 (1/2)).Nodup := by
  obtain ⟨h1, h2, _, _⟩ := c9_mmr_indices_distinct enc2 coll2 "alpha beta" 1 2 (1/2)
    (by with_unfolding_all decide) (by with_unfolding_all decide)
    (by with_unfolding_all decide)
  exact ⟨h1, h2⟩

/-- C8: the MMR selection always terminates: when the fetched pool has at
most k candidates it is returned unchanged immediately; otherwise the greedy
loop performs exactly k selection steps and stops — the result has exactly k
elements, and granting the while-loop any extra fuel beyond its k productive
iterations leaves the result unchanged (the loop never runs beyond the
pool). -/
theorem c8_mmr_terminates (enc : String → Vec) (coll : Collection)
    (query : String) (k fetch_k : Nat) (lam : ℚ) :
    ((retrieve_top_k enc coll query fetch_k).length ≤ k →
      retrieve_mmr enc coll query k fetch_k lam =
        retrieve_top_k enc coll query fetch_k) ∧
    (k < (retrieve_top_k enc coll query fetch_k).length →
      (retrieve_mmr enc coll query k fetch_k lam).length = k ∧
      (∀ extra, mmrLoop lam (enc query)
          ((retrieve_top_k enc coll query fetch_k).map (fun c => enc c.user_intent))
          k (k + extra) [] =
        mmrLoop lam (enc query)
          ((retrieve_top_k enc coll query fetch_k).map (fun c => enc c.user_intent))
          k k [])) := by
  constructor
  · exact retrieve_mmr_of_le enc coll query k fetch_k lam
  · intro h
    constructor
    · rw [retrieve_mmr_of_gt enc coll query k fetch_k lam h, List.length_map]
      exact (mmrIndices_spec enc coll query k fetch_k lam h).1
    · intro extra
      have hk2 : k < ((retrieve_top_k enc coll query fetch_k).map
          (fun c => enc c.user_intent)).length := by
        rw [List.length_map]; exact h
      obtain ⟨_, _, _, _, _, hextra⟩ := mmrLoop_spec lam (enc query)
        ((retrieve_top_k enc coll query fetch_k).map (fun c => enc c.user_intent))
        k hk2 k [] List.nodup_nil (by simp) (by simp)
      exact hextra extra

/-- C8 witness: both termination regimes at concrete inputs: a pool of size
equal to k is returned unchanged, and a pool larger than k yields exactly k
selections. -/
theorem c8_mmr_terminates_witness :
    retrieve_mmr enc2 coll2 "alpha beta" 2 2 (1/2) =
      retrieve_top_k enc2 coll2 "alpha beta" 2 ∧
    (retrieve_mmr enc2 coll2 "alpha beta" 1 2 (1/2)).length = 1 :=
  ⟨(c8_mmr_terminates enc2 coll2 "alpha beta" 2 2 (1/2)).1
      (by with_unfolding_all decide),
    ((c8_mmr_terminates enc2 coll2 "alpha beta" 1 2 (1/2)).2
      (by with_unfolding_all decide)).1⟩

/-- C1: with a candidate pool of more than k entries and lambda in [0,1], the
MMR selection builds its output greedily: the returned exemplars are the pool
entries at the k selected indices in selection order, the score of candidate
j given the already selected prev is exactly lambda * relevance + (1 -
lambda) * diversity with relevance the cosine similarity of the re-embedded
query and candidate and diversity 1 - max similarity to the selected
candidates (1.0 when none is selected yet), and at every step t the selected
index maximises that score over the not-yet-selected candidates, with score
ties going to the smaller index — the lower original nearest-neighbour rank,
hence (pool sortedness) a smaller-or-equal distance. -/
theorem c1_mmr_greedy_argmax (enc : String → Vec) (coll : Collection)
    (query : String) (k fetch_k : Nat) (lam : ℚ)
    (pool : List RetrievedExample) (embs : List Vec) (sel : List Nat)
    (hpool : pool = retrieve_top_k enc coll query fetch_k)
    (hembs : embs = pool.map (fun c => enc c.user_intent))
    (hsel : sel = mmrIndices enc coll query k fetch_k lam)
    (h0 : 0 ≤ lam) (h1 : lam ≤ 1) (hk : k < pool.length) :
    retrieve_mmr enc coll query k fetch_k lam =
      sel.map (fun i => pool.getD i default) ∧
    sel.length = k ∧
    (∀ prev j, mmrScore lam (enc query) embs prev j =
      (lam : ℝ) * cosine_similarity (enc query) (embs.getD j []) +
        (1 - (lam : ℝ)) * (if prev.isEmpty then 1
          else 1 - pymax (prev.map (fun s =>
            cosine_similarity (embs.getD j []) (embs.getD s []))))) ∧
    (∀ t, t < k →
      sel.getD t 0 < pool.length ∧
      sel.getD t 0 ∉ sel.take t ∧
      (∀ j, j < pool.length → j ∉ sel.take t →
        mmrScore lam (enc query) embs (sel.take t) j ≤
          mmrScore lam (enc query) embs (sel.take t) (sel.getD t 0)) ∧
      (∀ j, j < pool.length → j ∉ sel.take t →
        mmrScore lam (enc query) embs (sel.take t) j =
          mmrScore lam (enc query) embs (sel.take t) (sel.getD t 0) →
        sel.getD t 0 ≤ j ∧
        (pool.getD (sel.getD t 0) default).distance ≤
          (pool.getD j default).distance)) := by
  subst hembs
  subst hpool
  subst hsel
  have hlenm : ((retrieve_top_k enc coll query fetch_k).map
      (fun c => enc c.user_intent)).length =
      (retrieve_top_k enc coll query fetch_k).length := List.length_map _ _
  obtain ⟨hh1, hh2, hh3, hh4⟩ := mmrIndices_spec enc coll query k fetch_k lam hk
  refine ⟨retrieve_mmr_of_gt enc coll query k fetch_k lam hk, hh1,
    fun prev j => rfl, ?_⟩
  intro t ht
  have htr := hh4 t ht
  obtain ⟨hb1, hb2, hb3, hb4⟩ := (mmrBest_spec _ _ _).2 _ htr
  rw [hlenm] at hb1
  refine ⟨hb1, hb2, ?_, ?_⟩
  · intro j hj hjs
    exact hb3 j (by rw [hlenm]; exact hj) hjs
  · intro j hj hjs heq
    have hle := hb4 j (by rw [hlenm]; exact hj) hjs heq
    exact ⟨hle, retrieve_top_k_distance_mono enc coll query fetch_k hle hj⟩

/-- C1 witness: the greedy argmax law at concrete inputs with every
hypothesis discharged by evaluation. -/
theorem c1_mmr_greedy_argmax_witness :
    retrieve_mmr enc2 coll2 "alpha beta" 1 2 (1/2) =
      (mmrIndices enc2 coll2 "alpha beta" 1 2 (1/2)).map
        (fun i => (retrieve_top_k enc2 coll2 "alpha beta" 2).getD i default) ∧
    (mmrIndices enc2 coll2 "alpha beta" 1 2 (1/2)).length = 1 := by
  obtain ⟨h1, h2, _, _⟩ := c1_mmr_greedy_argmax enc2 coll2 "alpha beta" 1 2 (1/2)
    (retrieve_top_k enc2 coll2 "alpha beta" 2)
    ((retrieve_top_k enc2 coll2 "alpha beta" 2).map (fun c => enc2 c.user_intent))
    (mmrIndices enc2 coll2 "alpha beta" 1 2 (1/2)) rfl rfl rfl
    (by with_unfolding_all decide) (by with_unfolding_all decide)
    (by with_unfolding_all decide)
  exact ⟨h1, h2⟩

/-- C5 (amended): with lambda = 1.0 the MMR score degenerates to pure cosine
relevance, so whenever the ascending-distance order of the fetched pool
agrees with descending cosine similarity of the re-embedded candidate texts
(ties allowed: both tie-breaks pick the lower rank), the diversity policy
returns exactly the nearest-neighbour result with the same k. The agreement
hypothesis is necessary: the vector store ranks by squared Euclidean distance
of unnormalized embeddings, which need not order like cosine similarity (see
the counterexample). -/
theorem c5_mmr_lambda_one (enc : String → Vec) (coll : Collection)
    (query : String) (k fetch_k : Nat)
    (pool : List RetrievedExample) (embs : List Vec)
    (hpool : pool = retrieve_top_k enc coll query fetch_k)
    (hembs : embs = pool.map (fun c => enc c.user_intent))
    (hfk : k ≤ fetch_k) (hk : k < pool.length)
    (hrel : ∀ i j, i ≤ j → j < pool.length →
      cosine_similarity (enc query) (embs.getD j []) ≤
        cosine_similarity (enc query) (embs.getD i [])) :
    retrieve_mmr enc coll query k fetch_k 1 = retrieve_top_k enc coll query k := by
  subst hembs
  subst hpool
  have hn : ((retrieve_top_k enc coll query fetch_k).map
      (fun c => enc c.user_intent)).length =
      (retrieve_top_k enc coll query fetch_k).length := List.length_map _ _
  have hloop : ∀ fuel t, t + fuel = k →
      mmrLoop 1 (enc query)
        ((retrieve_top_k enc coll query fetch_k).map (fun c => enc c.user_intent))
        k fuel (List.range t) = List.range k := by
    intro fuel
    induction fuel with
    | zero =>
      intro t ht
      have htk : t = k := by omega
      subst htk
      rfl
    | succ fuel ih =>
      intro t ht
      have htk : t < k := by omega
      have hbest : mmrBest (mmrScore 1 (enc query)
          ((retrieve_top_k enc coll query fetch_k).map (fun c => enc c.user_intent))
          (List.range t)) (List.range t)
          ((retrieve_top_k enc coll query fetch_k).map
            (fun c => enc c.user_intent)).length = some t := by
        apply mmrBest_eq
        · rw [hn]; omega
        · simp [List.mem_range]
        · intro j hj hjs
          rw [mmrScore_one, mmrScore_one]
          have htj : t ≤ j := by simpa [List.mem_range] using hjs
          exact hrel t j htj (by rw [← hn]; exact hj)
        · intro j hj hjs _
          simpa [List.mem_range] using hjs
      have hstep : mmrLoop 1 (enc query)
          ((retrieve_top_k enc coll query fetch_k).map (fun c => enc c.user_intent))
          k (fuel + 1) (List.range t) =
          mmrLoop 1 (enc query)
            ((retrieve_top_k enc coll query fetch_k).map (fun c => enc c.user_intent))
            k fuel (List.range (t + 1)) := by
        simp only [mmrLoop, List.length_range, if_pos htk, hbest]
        rw [List.range_succ]
      rw [hstep]
      exact ih (t + 1) (by omega)
  have hsel : mmrIndices enc coll query k fetch_k 1 = List.range k := by
    rw [mmrIndices_def]
    exact hloop k 0 (by omega)
  rw [retrieve_mmr_of_gt enc coll query k fetch_k 1 hk, hsel,
    range_map_getD _ _ k (le_of_lt hk), retrieve_top_k_take enc coll query hfk]

/-- C5 witness: the amended degeneracy law at a concrete corpus whose
nearest-neighbour order does agree with descending cosine similarity; every
hypothesis is discharged by evaluation (the cosine similarities are 1 and
0). -/
theorem c5_mmr_lambda_one_witness :
    retrieve_mmr enc2 coll2 "alpha beta" 1 2 1 =
      retrieve_top_k enc2 coll2 "alpha beta" 1 := by
  have hembs : (retrieve_top_k enc2 coll2 "alpha beta" 2).map
      (fun c => enc2 c.user_intent) = [[1, 0], [0, 1]] := by
    with_unfolding_all decide
  have hqe : enc2 "alpha beta" = [1, 0] := by with_unfolding_all decide
  have hd10 : dotProduct [1, 0] [1, 0] = 1 := by norm_num [dotProduct]
  have hd01 : dotProduct [1, 0] [0, 1] = 0 := by norm_num [dotProduct]
  have hd11 : dotProduct [0, 1] [0, 1] = 1 := by norm_num [dotProduct]
  have hcA : cosine_similarity [1, 0] [1, 0] = 1 := by
    rw [cosine_similarity, hd10]
    push_cast
    rw [Real.sqrt_one]
    norm_num
  have hcB : cosine_similarity [1, 0] [0, 1] = 0 := by
    rw [cosine_similarity, hd01]
    push_cast
    norm_num
  apply c5_mmr_lambda_one enc2 coll2 "alpha beta" 1 2
    (retrieve_top_k enc2 coll2 "alpha beta" 2)
    ((retrieve_top_k enc2 coll2 "alpha beta" 2).map (fun c => enc2 c.user_intent))
    rfl rfl (by decide) (by with_unfolding_all decide)
  intro i j hij hj
  have hlen : (retrieve_top_k enc2 coll2 "alpha beta" 2).length = 2 := by
    with_unfolding_all decide
  rw [hlen] at hj
  rw [hembs, hqe]
  interval_cases j
  · interval_cases i
    · exact le_refl _
  · interval_cases i
    · simp only [List.getD_cons_zero, List.getD_cons_succ]
      rw [hcA, hcB]
      norm_num
    · exact le_refl _

/-- C5 counterexample: MMR with lambda = 1.0 re-ranks the pool by cosine
similarity of the re-embedded texts, while the nearest-neighbour order is
ascending squared Euclidean distance of the stored unnormalized embeddings.
On this corpus the query embeds to [1,0]; candidate dA embeds to the unit
vector [3/5,4/5] (cosine 3/5, distance 4/5) and dB to [5,0] (cosine 1,
distance 16), so nearest-neighbour returns dA but MMR with lambda = 1 and
k = 1 returns dB: the two policies disagree. -/
theorem c5_counterexample_lambda_one :
    retrieve_mmr enc5 coll5 "q" 1 2 1 ≠ retrieve_top_k enc5 coll5 "q" 1 := by
  have hsqrt25 : Real.sqrt 25 = 5 := by
    rw [show (25 : ℝ) = 5 ^ 2 by norm_num]
    exact Real.sqrt_sq (by norm_num)
  have hdA : dotProduct [1, 0] [3/5, 4/5] = 3/5 := by norm_num [dotProduct]
  have hdAA : dotProduct [3/5, 4/5] [3/5, 4/5] = 1 := by norm_num [dotProduct]
  have hdB : dotProduct [1, 0] [5, 0] = 5 := by norm_num [dotProduct]
  have hdBB : dotProduct [5, 0] [5, 0] = 25 := by norm_num [dotProduct]
  have hdqq : dotProduct [1, 0] [1, 0] = 1 := by norm_num [dotProduct]
  have hcA : cosine_similarity [1, 0] [3/5, 4/5] = 3/5 := by
    rw [cosine_similarity, hdA, hdAA, hdqq]
    push_cast
    rw [Real.sqrt_one]
    norm_num
  have hcB : cosine_similarity [1, 0] [5, 0] = 1 := by
    rw [cosine_similarity, hdB, hdBB, hdqq]
    push_cast
    rw [Real.sqrt_one, hsqrt25]
    norm_num
  have hpool : retrieve_top_k enc5 coll5 "q" 2 =
      [{ user_intent := "dA", tmf921_intent := "tA", distance := 4/5,
          id := "intent_0", combined_score := none },
        { user_intent := "dB", tmf921_intent := "tB", distance := 16,
          id := "intent_1", combined_score := none }] := by
    with_unfolding_all decide
  have hembs : (retrieve_top_k enc5 coll5 "q" 2).map (fun c => enc5 c.user_intent) =
      [[3/5, 4/5], [5, 0]] := by
    with_unfolding_all decide
  have hqe : enc5 "q" = [1, 0] := by with_unfolding_all decide
  have hk : 1 < (retrieve_top_k enc5 coll5 "q" 2).length := by
    rw [hpool]; decide
  have hbest : mmrBest (mmrScore 1 [1, 0] [[3/5, 4/5], [5, 0]] []) []
      ([[(3:ℚ)/5, 4/5], [5, 0]].length) = some 1 := by
    apply mmrBest_eq
    · decide
    · simp
    · intro j hj hjs
      rw [mmrScore_one, mmrScore_one]
      simp only [List.length_cons, List.length_nil] at hj
      interval_cases j
      · simp only [List.getD_cons_zero, List.getD_cons_succ]
        rw [hcA, hcB]
        norm_num
      · exact le_refl _
    · intro j hj hjs heq
      rw [mmrScore_one, mmrScore_one] at heq
      simp only [List.length_cons, List.length_nil] at hj
      interval_cases j
      · exfalso
        simp only [List.getD_cons_zero, List.getD_cons_succ] at heq
        rw [hcA, hcB] at heq
        norm_num at heq
      · exact le_refl _
  have hloop : mmrLoop 1 [1, 0] [[3/5, 4/5], [5, 0]] 1 1 [] = [1] := by
    simp only [mmrLoop, List.length_nil, if_pos Nat.zero_lt_one, hbest]
    rfl
  have hfin : retrieve_mmr enc5 coll5 "q" 1 2 1 =
      [{ user_intent := "dB", tmf921_intent := "tB", distance := 16,
          id := "intent_1", combined_score := none }] := by
    rw [retrieve_mmr_of_gt enc5 coll5 "q" 1 2 1 hk, mmrIndices_def, hqe, hembs,
      hloop, hpool]
    with_unfolding_all decide
  have htop1 : retrieve_top_k enc5 coll5 "q" 1 =
      [{ user_intent := "dA", tmf921_intent := "tA", distance := 4/5,
          id := "intent_0", combined_score := none }] := by
    with_unfolding_all decide
  rw [hfin, htop1]
  with_unfolding_all decide

end TMF
